import Mathlib

/-!
Verification of the multipart upload engine of zerofs.py (classes
Uploader and APIClient).

The embedding models the code of Uploader._upload_part and
Uploader._multipart_upload.  Byte counts and part numbers are Python
arbitrary-precision non-negative integers, modelled as Nat.  The network
is modelled by an environment assigning to every part and every 0-based
attempt index the outcome of that PUT attempt: a 2xx response carrying an
optional ETag header, a requests.RequestException (transient), or any
other exception (fatal).  The concurrent executor is modelled by the
completion order in which the as_completed loop observes the futures; a
run of the orchestrator is reported as an outcome (return value together
with the diagnostic that identifies the failure kind), a serialized trace
of the observable events (progress-sink updates and close, abort and
completion calls), and the total number of PUT attempts issued.
-/

namespace Zerofs

/-- Constant MAX_RETRIES = 5 of zerofs.py. -/
def MAX_RETRIES : Nat := 5

/-- Constant RETRY_BACKOFF_BASE = 2 of zerofs.py. -/
def RETRY_BACKOFF_BASE : Nat := 2

/-- Outcome of one PUT attempt of a part, as seen by the retry loop of
Uploader._upload_part: a 2xx response with an optional ETag header value,
a requests.RequestException, or any other exception. -/
inductive AttemptOut where
  | ok (etag : Option String)
  | transient
  | fatal
deriving DecidableEq, Repr

/-- The dict returned by Uploader._upload_part on success. -/
structure PartResult where
  part_number : Nat
  etag : String
deriving DecidableEq, Repr

/-- Python str.strip applied with the double-quote character: removes all
leading and all trailing occurrences of the quote character. -/
def stripQuotes (s : String) : String :=
  String.mk (((s.data.dropWhile fun c => c == Char.ofNat 34).reverse.dropWhile
      fun c => c == Char.ofNat 34).reverse)

/-- Result of one full run of the retry loop of Uploader._upload_part:
the dict is returned, a requests.RequestException is re-raised after the
final attempt, or another exception propagates at once. -/
inductive PartOutcome where
  | success (res : PartResult)
  | failed
  | error
deriving DecidableEq, Repr

/-- Observable behaviour of one run of Uploader._upload_part: the outcome,
the backoff sleeps performed (in order, in seconds), the values passed to
progress.update (in order), and how many PUT attempts were issued. -/
structure PartRun where
  outcome : PartOutcome
  sleeps : List Nat
  updates : List Nat
  attemptsMade : Nat
deriving DecidableEq, Repr

/-- The retry loop of Uploader._upload_part, from 0-based attempt index i
with fuel = MAX_RETRIES - i iterations left.  On a 2xx response the worker
strips quotes from the ETag header (empty string when absent), calls
progress.update with the part size, and returns the part dict.  On a
requests.RequestException it sleeps RETRY_BACKOFF_BASE ^ i and retries
while i < MAX_RETRIES - 1, and re-raises on the final attempt.  Any other
exception propagates immediately. -/
def upload_part_from (pn psz : Nat) (att : Nat → AttemptOut) (i : Nat) :
    Nat → PartRun
  | 0 => { outcome := .failed, sleeps := [], updates := [], attemptsMade := 0 }
  | fuel + 1 =>
    match att i with
    | .ok e =>
        { outcome := .success { part_number := pn, etag := stripQuotes (e.getD "") }
          sleeps := [], updates := [psz], attemptsMade := 1 }
    | .fatal =>
        { outcome := .error, sleeps := [], updates := [], attemptsMade := 1 }
    | .transient =>
        if fuel = 0 then
          { outcome := .failed, sleeps := [], updates := [], attemptsMade := 1 }
        else
          let r := upload_part_from pn psz att (i + 1) fuel
          { outcome := r.outcome, sleeps := RETRY_BACKOFF_BASE ^ i :: r.sleeps
            updates := r.updates, attemptsMade := r.attemptsMade + 1 }

/-- Uploader._upload_part for a part with number pn and byte count psz,
against the attempt environment att. -/
def upload_part (pn psz : Nat) (att : Nat → AttemptOut) : PartRun :=
  upload_part_from pn psz att 0 MAX_RETRIES

/-- Boolean test that a part run returned a PartResult. -/
def isSuccessB (ru : PartRun) : Bool :=
  match ru.outcome with
  | .success _ => true
  | _ => false

/-- The PartResult of a successful part run (dummy value otherwise). -/
def the_result (ru : PartRun) : PartResult :=
  match ru.outcome with
  | .success r => r
  | _ => { part_number := 0, etag := "" }

theorem outcome_of_isSuccessB {ru : PartRun} (h : isSuccessB ru = true) :
    ru.outcome = .success (the_result ru) := by
  unfold isSuccessB the_result at *
  cases hq : ru.outcome <;> simp [hq] at h ⊢

theorem not_success_of_isSuccessB_false {ru : PartRun} (h : isSuccessB ru = false) :
    ∀ r, ru.outcome ≠ .success r := by
  unfold isSuccessB at h
  intro r hr
  rw [hr] at h
  simp at h

theorem upf_attemptsMade_le (pn psz : Nat) (att : Nat → AttemptOut) :
    ∀ fuel i, (upload_part_from pn psz att i fuel).attemptsMade ≤ fuel := by
  intro fuel
  induction fuel with
  | zero => intro i; simp [upload_part_from]
  | succ f ih =>
      intro i
      rw [upload_part_from]
      cases att i with
      | ok e => simp
      | fatal => simp
      | transient =>
          by_cases hf : f = 0
          · simp [hf]
          · simp only [if_neg hf]
            exact Nat.succ_le_succ (ih (i + 1))

theorem upf_attemptsMade_pos (pn psz : Nat) (att : Nat → AttemptOut) :
    ∀ fuel i, 0 < fuel → 1 ≤ (upload_part_from pn psz att i fuel).attemptsMade := by
  intro fuel i hfuel
  match fuel, hfuel with
  | f + 1, _ =>
    rw [upload_part_from]
    cases att i with
    | ok e => simp
    | fatal => simp
    | transient =>
        by_cases hf : f = 0
        · simp [hf]
        · simp only [if_neg hf]
          omega

theorem upf_sleeps (pn psz : Nat) (att : Nat → AttemptOut) :
    ∀ fuel i, (upload_part_from pn psz att i fuel).sleeps
      = (List.range ((upload_part_from pn psz att i fuel).attemptsMade - 1)).map
          fun k => RETRY_BACKOFF_BASE ^ (i + k) := by
  intro fuel
  induction fuel with
  | zero => intro i; simp [upload_part_from]
  | succ f ih =>
      intro i
      rw [upload_part_from]
      cases att i with
      | ok e => simp
      | fatal => simp
      | transient =>
          by_cases hf : f = 0
          · simp [hf]
          · simp only [if_neg hf]
            have hpos : 1 ≤ (upload_part_from pn psz att (i + 1) f).attemptsMade :=
              upf_attemptsMade_pos pn psz att f (i + 1) (Nat.pos_of_ne_zero hf)
            obtain ⟨m, hm⟩ : ∃ m, (upload_part_from pn psz att (i + 1) f).attemptsMade
                = m + 1 := ⟨_, (Nat.succ_pred_eq_of_pos hpos).symm⟩
            simp only [hm, ih (i + 1), Nat.add_sub_cancel]
            rw [List.range_succ_eq_map]
            simp only [List.map_cons, List.map_map, Nat.add_zero]
            congr 1
            apply List.map_congr_left
            intro a _
            simp only [Function.comp]
            congr 1
            omega

theorem upf_pre_transient (pn psz : Nat) (att : Nat → AttemptOut) :
    ∀ fuel i k, k < (upload_part_from pn psz att i fuel).attemptsMade - 1 →
      att (i + k) = .transient := by
  intro fuel
  induction fuel with
  | zero => intro i k hk; simp [upload_part_from] at hk
  | succ f ih =>
      intro i k hk
      rw [upload_part_from] at hk
      cases hai : att i with
      | ok e => rw [hai] at hk; simp at hk
      | fatal => rw [hai] at hk; simp at hk
      | transient =>
          rw [hai] at hk
          by_cases hf : f = 0
          · simp [hf] at hk
          · simp only [if_neg hf] at hk
            cases k with
            | zero => simpa using hai
            | succ k =>
                have : k < (upload_part_from pn psz att (i + 1) f).attemptsMade - 1 := by
                  simp at hk; omega
                have := ih (i + 1) k this
                simpa [Nat.add_assoc, Nat.add_comm 1 k] using this

theorem upf_success_at (pn psz : Nat) (att : Nat → AttemptOut) (e : Option String) :
    ∀ m fuel i, m < fuel → (∀ k, k < m → att (i + k) = .transient) →
      att (i + m) = .ok e →
      (upload_part_from pn psz att i fuel).outcome
          = .success { part_number := pn, etag := stripQuotes (e.getD "") } ∧
      (upload_part_from pn psz att i fuel).attemptsMade = m + 1 ∧
      (upload_part_from pn psz att i fuel).updates = [psz] := by
  intro m
  induction m with
  | zero =>
      intro fuel i hm _ hok
      match fuel, hm with
      | f + 1, _ =>
        rw [upload_part_from]
        simp only [Nat.add_zero] at hok
        rw [hok]
        simp
  | succ m ih =>
      intro fuel i hm hpre hok
      match fuel, hm with
      | f + 1, _ =>
        rw [upload_part_from]
        have h0 : att i = .transient := by simpa using hpre 0 (Nat.succ_pos m)
        rw [h0]
        have hf : f ≠ 0 := by omega
        simp only [if_neg hf]
        have hrec := ih f (i + 1) (by omega)
          (fun k hk => by
            have := hpre (k + 1) (by omega)
            simpa [Nat.add_assoc, Nat.add_comm 1 k] using this)
          (by simpa [Nat.add_assoc, Nat.add_comm 1 m] using hok)
        exact ⟨hrec.1, by simp [hrec.2.1], hrec.2.2⟩

theorem upf_fatal_at (pn psz : Nat) (att : Nat → AttemptOut) :
    ∀ m fuel i, m < fuel → (∀ k, k < m → att (i + k) = .transient) →
      att (i + m) = .fatal →
      (upload_part_from pn psz att i fuel).outcome = .error ∧
      (upload_part_from pn psz att i fuel).attemptsMade = m + 1 ∧
      (upload_part_from pn psz att i fuel).updates = [] := by
  intro m
  induction m with
  | zero =>
      intro fuel i hm _ hok
      match fuel, hm with
      | f + 1, _ =>
        rw [upload_part_from]
        simp only [Nat.add_zero] at hok
        rw [hok]
        simp
  | succ m ih =>
      intro fuel i hm hpre hok
      match fuel, hm with
      | f + 1, _ =>
        rw [upload_part_from]
        have h0 : att i = .transient := by simpa using hpre 0 (Nat.succ_pos m)
        rw [h0]
        have hf : f ≠ 0 := by omega
        simp only [if_neg hf]
        have hrec := ih f (i + 1) (by omega)
          (fun k hk => by
            have := hpre (k + 1) (by omega)
            simpa [Nat.add_assoc, Nat.add_comm 1 k] using this)
          (by simpa [Nat.add_assoc, Nat.add_comm 1 m] using hok)
        exact ⟨hrec.1, by simp [hrec.2.1], hrec.2.2⟩

theorem upf_all_transient (pn psz : Nat) (att : Nat → AttemptOut) :
    ∀ fuel i, (∀ k, k < fuel → att (i + k) = .transient) →
      (upload_part_from pn psz att i fuel).outcome = .failed ∧
      (upload_part_from pn psz att i fuel).attemptsMade = fuel ∧
      (upload_part_from pn psz att i fuel).updates = [] := by
  intro fuel
  induction fuel with
  | zero => intro i _; simp [upload_part_from]
  | succ f ih =>
      intro i hall
      rw [upload_part_from]
      have h0 : att i = .transient := by simpa using hall 0 (Nat.succ_pos f)
      rw [h0]
      by_cases hf : f = 0
      · simp [hf]
      · simp only [if_neg hf]
        have hrec := ih (i + 1) (fun k hk => by
          have := hall (k + 1) (by omega)
          simpa [Nat.add_assoc, Nat.add_comm 1 k] using this)
        exact ⟨hrec.1, by simp [hrec.2.1], hrec.2.2⟩

theorem upf_updates_eq (pn psz : Nat) (att : Nat → AttemptOut) :
    ∀ fuel i, (upload_part_from pn psz att i fuel).updates
      = (if isSuccessB (upload_part_from pn psz att i fuel) then [psz] else []) := by
  intro fuel
  induction fuel with
  | zero => intro i; simp [upload_part_from, isSuccessB]
  | succ f ih =>
      intro i
      rw [upload_part_from]
      cases att i with
      | ok e => simp [isSuccessB]
      | fatal => simp [isSuccessB]
      | transient =>
          by_cases hf : f = 0
          · simp [hf, isSuccessB]
          · simp only [if_neg hf]
            simpa [isSuccessB] using ih (i + 1)

theorem upf_success_pn (pn psz : Nat) (att : Nat → AttemptOut) :
    ∀ fuel i r, (upload_part_from pn psz att i fuel).outcome = .success r →
      r.part_number = pn := by
  intro fuel
  induction fuel with
  | zero => intro i r h; simp [upload_part_from] at h
  | succ f ih =>
      intro i r h
      rw [upload_part_from] at h
      cases hai : att i with
      | ok e =>
          rw [hai] at h
          simp only [PartOutcome.success.injEq] at h
          rw [← h]
      | fatal => rw [hai] at h; simp at h
      | transient =>
          rw [hai] at h
          by_cases hf : f = 0
          · simp [hf] at h
          · simp only [if_neg hf] at h
            exact ih (i + 1) r h

/-- Start offset of a part in Uploader._multipart_upload:
start = (part_number - 1) * chunk_size. -/
def part_start (chunk pn : Nat) : Nat := (pn - 1) * chunk

/-- End offset (exclusive) of a part in Uploader._multipart_upload:
the minimum of start + chunk_size and the file size. -/
def part_end (fsz chunk pn : Nat) : Nat := min (part_start chunk pn + chunk) fsz

/-- Byte count of a part, end - start, as passed to Uploader._upload_part. -/
def part_size (fsz chunk pn : Nat) : Nat :=
  part_end fsz chunk pn - part_start chunk pn

/-- Ceiling division, ceil a / b on naturals. -/
def ceilDiv (a b : Nat) : Nat := (a + b - 1) / b

/-- Observable events of one run of Uploader._multipart_upload, serialized:
progress.update calls made by workers, progress.complete, the abort call,
the warning printed when the abort notification itself fails, and the
complete-multipart call carrying the assembled part list. -/
inductive Event where
  | update (pn n : Nat)
  | close
  | abortCall
  | abortWarn
  | completeCall (parts : List PartResult)
deriving DecidableEq, Repr

/-- Result of Uploader._multipart_upload as reported to the caller: True
with the sorted part list handed to the completion endpoint; False after
the printed part-failure diagnostic naming the failed part; or False after
the printed completion-failure diagnostic (distinct message). -/
inductive Outcome where
  | success (parts : List PartResult)
  | partFailed (pn : Nat)
  | completionFailed
deriving DecidableEq, Repr

/-- Full observable behaviour of one run of Uploader._multipart_upload. -/
structure MultipartRun where
  outcome : Outcome
  trace : List Event
  requests : Nat
deriving DecidableEq, Repr

/-- Result of the as_completed collection loop: either every observed
future returned a dict (collected in completion order), or the loop broke
at the first future whose result raised, recording the parts observed up
to and including that one and the parts still outstanding. -/
inductive CollectOut where
  | allOk (results : List PartResult)
  | failedAt (pn : Nat) (done restParts : List Nat)
deriving DecidableEq, Repr

/-- The as_completed loop of Uploader._multipart_upload: consume futures
in completion order, appending each successful part dict; on the first
exception stop with that part number. -/
def collect (runs : Nat → PartRun) : List Nat → List Nat → List PartResult → CollectOut
  | [], _done, acc => .allOk acc
  | pn :: rest, done, acc =>
    match (runs pn).outcome with
    | .success res => collect runs rest (done ++ [pn]) (acc ++ [res])
    | _ => .failedAt pn (done ++ [pn]) rest

/-- The sort key of parts.sort in Uploader._multipart_upload: ascending
part_number. -/
abbrev partLE (a b : PartResult) : Prop := a.part_number ≤ b.part_number

instance : DecidableRel partLE := fun a b => Nat.decLe a.part_number b.part_number

instance : IsTotal PartResult partLE := ⟨fun a b => Nat.le_total a.part_number b.part_number⟩

instance : IsTrans PartResult partLE := ⟨fun _ _ _ => Nat.le_trans⟩

/-- parts.sort(key part_number) of Uploader._multipart_upload. -/
def sortParts (l : List PartResult) : List PartResult := l.insertionSort partLE

/-- The progress.update events emitted by the workers for the given parts,
in that order. -/
def updatesOf (runs : Nat → PartRun) (pns : List Nat) : List Event :=
  pns.flatMap fun pn => (runs pn).updates.map fun n => Event.update pn n

/-- Total number of PUT attempts issued by the workers for the given parts. -/
def requestsOf (runs : Nat → PartRun) (pns : List Nat) : Nat :=
  (pns.map fun pn => (runs pn).attemptsMade).sum

/-- The worker run for one part of a multipart upload: the part size is
computed from the range formulas of Uploader._multipart_upload and handed
to Uploader._upload_part. -/
def part_runs (fsz chunk : Nat) (env : Nat → Nat → AttemptOut) (pn : Nat) : PartRun :=
  upload_part pn (part_size fsz chunk pn) (env pn)

/-- Uploader._multipart_upload.  part_urls is the list of part numbers of
the supplied presigned URLs, in the order dispatched; env gives each
part's attempt outcomes; order is the completion order in which the
as_completed loop observes the futures (a permutation of part_urls);
completeOk and abortOk tell whether the completion and abort endpoints
answer without a requests.RequestException.

On the first observed failure the code prints the part diagnostic, closes
the progress bar, notifies the abort endpoint (a failure there only prints
a warning) and returns False; leaving the executor body then waits for the
still-outstanding futures, whose workers run to completion and emit their
update calls after the close.  When every future succeeded the collected
dicts are sorted by part_number, the progress bar is closed and the
completion endpoint is called; if that call fails the outer handler closes
the bar again, notifies the abort endpoint and returns False with the
distinct completion-failure diagnostic.  All submitted workers always run,
so the attempt count covers every supplied URL. -/
def multipart_upload (fsz chunk : Nat) (part_urls : List Nat)
    (env : Nat → Nat → AttemptOut) (order : List Nat)
    (completeOk abortOk : Bool) : MultipartRun :=
  match collect (part_runs fsz chunk env) order [] [] with
  | .failedAt pn done restParts =>
      { outcome := .partFailed pn
        trace := updatesOf (part_runs fsz chunk env) done
                   ++ [Event.close, Event.abortCall]
                   ++ (if abortOk then [] else [Event.abortWarn])
                   ++ updatesOf (part_runs fsz chunk env) restParts
        requests := requestsOf (part_runs fsz chunk env) part_urls }
  | .allOk results =>
      if completeOk then
        { outcome := .success (sortParts results)
          trace := updatesOf (part_runs fsz chunk env) order
                     ++ [Event.close, Event.completeCall (sortParts results)]
          requests := requestsOf (part_runs fsz chunk env) part_urls }
      else
        { outcome := .completionFailed
          trace := updatesOf (part_runs fsz chunk env) order
                     ++ [Event.close, Event.completeCall (sortParts results),
                         Event.close, Event.abortCall]
                     ++ (if abortOk then [] else [Event.abortWarn])
          requests := requestsOf (part_runs fsz chunk env) part_urls }

/-- Sum of the byte amounts of all progress.update events of a trace. -/
def updateTotal (tr : List Event) : Nat :=
  (tr.map fun e =>
    match e with
    | .update _ n => n
    | _ => 0).sum

/-- Scans a trace and reports whether some progress.update event occurs
after a progress close event; seen records whether a close was passed. -/
def hasUpdateAfterCloseFrom (seen : Bool) : List Event → Bool
  | [] => false
  | e :: es =>
    match e with
    | .close => hasUpdateAfterCloseFrom true es
    | .update _ _ => if seen then true else hasUpdateAfterCloseFrom seen es
    | _ => hasUpdateAfterCloseFrom seen es

/-- Whether a trace contains a progress.update event after the progress
sink was closed. -/
def hasUpdateAfterClose (tr : List Event) : Bool := hasUpdateAfterCloseFrom false tr

theorem upload_part_attemptsMade_pos (pn psz : Nat) (att : Nat → AttemptOut) :
    1 ≤ (upload_part pn psz att).attemptsMade :=
  upf_attemptsMade_pos pn psz att MAX_RETRIES 0 (by decide)

theorem collect_allOk (runs : Nat → PartRun) :
    ∀ pns done acc, (∀ pn ∈ pns, isSuccessB (runs pn) = true) →
      collect runs pns done acc
        = .allOk (acc ++ pns.map fun pn => the_result (runs pn)) := by
  intro pns
  induction pns with
  | nil => intro done acc _; simp [collect]
  | cons pn rest ih =>
      intro done acc hall
      have h0 : isSuccessB (runs pn) = true := hall pn (List.mem_cons_self _ _)
      rw [collect, outcome_of_isSuccessB h0]
      show collect runs rest (done ++ [pn]) (acc ++ [the_result (runs pn)])
          = CollectOut.allOk (acc ++ List.map (fun x => the_result (runs x)) (pn :: rest))
      rw [ih (done ++ [pn]) (acc ++ [the_result (runs pn)])
        (fun x hx => hall x (List.mem_cons_of_mem _ hx))]
      simp

theorem collect_failedAt (runs : Nat → PartRun) :
    ∀ done0 pn restParts done acc,
      (∀ q ∈ done0, isSuccessB (runs q) = true) → isSuccessB (runs pn) = false →
      collect runs (done0 ++ pn :: restParts) done acc
        = .failedAt pn ((done ++ done0) ++ [pn]) restParts := by
  intro done0
  induction done0 with
  | nil =>
      intro pn restParts done acc _ hfail
      simp only [List.nil_append, List.append_nil]
      rw [collect]
      cases hq : (runs pn).outcome with
      | success r => exact absurd hq (not_success_of_isSuccessB_false hfail r)
      | failed => rfl
      | error => rfl
  | cons q rest ih =>
      intro pn restParts done acc hall hfail
      have hq : isSuccessB (runs q) = true := hall q (List.mem_cons_self _ _)
      simp only [List.cons_append]
      rw [collect, outcome_of_isSuccessB hq]
      show collect runs (rest ++ pn :: restParts) (done ++ [q]) (acc ++ [the_result (runs q)])
          = CollectOut.failedAt pn ((done ++ q :: rest) ++ [pn]) restParts
      rw [ih pn restParts (done ++ [q]) (acc ++ [the_result (runs q)])
        (fun x hx => hall x (List.mem_cons_of_mem _ hx)) hfail]
      simp

theorem updatesOf_nil (runs : Nat → PartRun) : updatesOf runs [] = [] := rfl

theorem updatesOf_cons (runs : Nat → PartRun) (pn : Nat) (pns : List Nat) :
    updatesOf runs (pn :: pns)
      = ((runs pn).updates.map fun n => Event.update pn n) ++ updatesOf runs pns := by
  simp [updatesOf]

theorem mem_updatesOf (runs : Nat → PartRun) (pns : List Nat) (e : Event) :
    e ∈ updatesOf runs pns → ∃ pn n, e = Event.update pn n := by
  intro he
  simp only [updatesOf, List.mem_flatMap, List.mem_map] at he
  obtain ⟨pn, _, n, _, rfl⟩ := he
  exact ⟨pn, n, rfl⟩

theorem abortCall_not_mem_updatesOf (runs : Nat → PartRun) (pns : List Nat) :
    Event.abortCall ∉ updatesOf runs pns := by
  intro h
  obtain ⟨pn, n, h⟩ := mem_updatesOf runs pns _ h
  cases h

theorem abortWarn_not_mem_updatesOf (runs : Nat → PartRun) (pns : List Nat) :
    Event.abortWarn ∉ updatesOf runs pns := by
  intro h
  obtain ⟨pn, n, h⟩ := mem_updatesOf runs pns _ h
  cases h

theorem completeCall_not_mem_updatesOf (runs : Nat → PartRun) (pns : List Nat)
    (l : List PartResult) : Event.completeCall l ∉ updatesOf runs pns := by
  intro h
  obtain ⟨pn, n, h⟩ := mem_updatesOf runs pns _ h
  cases h

theorem update_mem_updatesOf (runs : Nat → PartRun) (pns : List Nat) (pn n : Nat)
    (hpn : pn ∈ pns) (hn : n ∈ (runs pn).updates) :
    Event.update pn n ∈ updatesOf runs pns := by
  simp only [updatesOf, List.mem_flatMap, List.mem_map]
  exact ⟨pn, hpn, n, hn, rfl⟩

theorem updateTotal_append (a b : List Event) :
    updateTotal (a ++ b) = updateTotal a + updateTotal b := by
  simp [updateTotal]

theorem updateTotal_updatesOf (runs : Nat → PartRun) :
    ∀ pns, updateTotal (updatesOf runs pns)
      = (pns.map fun pn => (runs pn).updates.sum).sum := by
  intro pns
  induction pns with
  | nil => simp [updatesOf, updateTotal]
  | cons pn rest ih =>
      rw [updatesOf_cons, updateTotal_append, ih]
      simp only [List.map_cons, List.sum_cons]
      congr 1
      simp only [updateTotal, List.map_map]
      trans (List.map id (runs pn).updates).sum
      · exact congrArg List.sum (List.map_congr_left fun a _ => rfl)
      · simp

theorem requestsOf_ge_length (fsz chunk : Nat) (env : Nat → Nat → AttemptOut) :
    ∀ pns : List Nat, pns.length ≤ requestsOf (part_runs fsz chunk env) pns := by
  intro pns
  induction pns with
  | nil => simp [requestsOf]
  | cons pn rest ih =>
      simp only [requestsOf, List.map_cons, List.sum_cons, List.length_cons]
      have hpos : 1 ≤ (part_runs fsz chunk env pn).attemptsMade :=
        upload_part_attemptsMade_pos pn (part_size fsz chunk pn) (env pn)
      simp only [requestsOf] at ih
      omega

theorem le_ceilDiv_mul (fsz chunk : Nat) (h : 0 < chunk) :
    fsz ≤ ceilDiv fsz chunk * chunk := by
  unfold ceilDiv
  have hdm := Nat.div_add_mod (fsz + chunk - 1) chunk
  have hml : (fsz + chunk - 1) % chunk < chunk := Nat.mod_lt _ h
  have hc : chunk * ((fsz + chunk - 1) / chunk)
      = ((fsz + chunk - 1) / chunk) * chunk := Nat.mul_comm _ _
  omega

theorem ceilDiv_mul_lt (fsz chunk : Nat) (h : 0 < chunk) :
    ceilDiv fsz chunk * chunk < fsz + chunk := by
  unfold ceilDiv
  have hdm := Nat.div_add_mod (fsz + chunk - 1) chunk
  have hc : chunk * ((fsz + chunk - 1) / chunk)
      = ((fsz + chunk - 1) / chunk) * chunk := Nat.mul_comm _ _
  omega

theorem le_ceilDiv_of_lt (fsz chunk p : Nat) (h : 0 < chunk) (hp : 0 < p)
    (hlt : (p - 1) * chunk < fsz) : p ≤ ceilDiv fsz chunk := by
  unfold ceilDiv
  rw [Nat.le_div_iff_mul_le h]
  obtain ⟨q, rfl⟩ : ∃ q, p = q + 1 := ⟨p - 1, by omega⟩
  have hs : (q + 1) * chunk = q * chunk + chunk := Nat.succ_mul q chunk
  simp only [Nat.add_sub_cancel] at hlt
  omega

theorem lt_of_le_ceilDiv (fsz chunk p : Nat) (h : 0 < chunk) (hp : 0 < p)
    (hle : p ≤ ceilDiv fsz chunk) : (p - 1) * chunk < fsz := by
  unfold ceilDiv at hle
  rw [Nat.le_div_iff_mul_le h] at hle
  obtain ⟨q, rfl⟩ : ∃ q, p = q + 1 := ⟨p - 1, by omega⟩
  have hs : (q + 1) * chunk = q * chunk + chunk := Nat.succ_mul q chunk
  simp only [Nat.add_sub_cancel]
  omega

/-- C4: for every totalSize and every chunkSize > 0, with part numbers
forming the contiguous range 1..ceil(totalSize/chunkSize), the byte range
the dispatch loop computes for part p is [start, end) with
start = (p-1)*chunkSize and end = min(start+chunkSize, totalSize); these
ranges are ceil(totalSize/chunkSize) in number, start at offset 0, are
nonempty and contiguous in part-number order, the last one ends at
totalSize, and every byte below totalSize lies in exactly one range. -/
theorem C4_partition (fsz chunk : Nat) (hchunk : 0 < chunk) :
    (List.range' 1 (ceilDiv fsz chunk)).length = ceilDiv fsz chunk ∧
    (∀ p, part_start chunk p = (p - 1) * chunk) ∧
    (∀ p, part_end fsz chunk p = min (part_start chunk p + chunk) fsz) ∧
    part_start chunk 1 = 0 ∧
    (∀ p, 1 ≤ p → p < ceilDiv fsz chunk →
        part_end fsz chunk p = part_start chunk (p + 1)) ∧
    (∀ p, 1 ≤ p → p ≤ ceilDiv fsz chunk →
        part_start chunk p < part_end fsz chunk p) ∧
    (0 < ceilDiv fsz chunk → part_end fsz chunk (ceilDiv fsz chunk) = fsz) ∧
    (∀ x, x < fsz → ∃! p, p ∈ List.range' 1 (ceilDiv fsz chunk) ∧
        part_start chunk p ≤ x ∧ x < part_end fsz chunk p) := by
  refine ⟨by simp, fun p => rfl, fun p => rfl, by simp [part_start], ?_, ?_, ?_, ?_⟩
  · intro p h1 hlt
    have hx : (p + 1 - 1) * chunk < fsz :=
      lt_of_le_ceilDiv fsz chunk (p + 1) hchunk (by omega) (by omega)
    simp only [Nat.add_sub_cancel] at hx
    unfold part_end part_start
    obtain ⟨q, rfl⟩ : ∃ q, p = q + 1 := ⟨p - 1, by omega⟩
    simp only [Nat.add_sub_cancel]
    have hs : (q + 1) * chunk = q * chunk + chunk := Nat.succ_mul q chunk
    have hle : q * chunk + chunk ≤ fsz := by omega
    rw [Nat.min_eq_left hle]
    omega
  · intro p h1 hle
    have hx : (p - 1) * chunk < fsz := lt_of_le_ceilDiv fsz chunk p hchunk (by omega) hle
    unfold part_end part_start
    rw [Nat.lt_min]
    exact ⟨by omega, hx⟩
  · intro hn
    unfold part_end part_start
    have h1 := le_ceilDiv_mul fsz chunk hchunk
    obtain ⟨m, hm⟩ : ∃ m, ceilDiv fsz chunk = m + 1 :=
      ⟨_, (Nat.succ_pred_eq_of_pos hn).symm⟩
    rw [hm] at h1 ⊢
    simp only [Nat.add_sub_cancel]
    have hs : (m + 1) * chunk = m * chunk + chunk := Nat.succ_mul m chunk
    rw [Nat.min_eq_right (by omega)]
  · intro x hx
    refine ⟨x / chunk + 1, ⟨?_, ?_, ?_⟩, ?_⟩
    · rw [List.mem_range'_1]
      refine ⟨Nat.le_add_left 1 _, ?_⟩
      have hp : x / chunk + 1 ≤ ceilDiv fsz chunk := by
        apply le_ceilDiv_of_lt fsz chunk (x / chunk + 1) hchunk (Nat.succ_pos _)
        simp only [Nat.add_sub_cancel]
        calc x / chunk * chunk ≤ x := Nat.div_mul_le_self x chunk
          _ < fsz := hx
      omega
    · unfold part_start
      simp only [Nat.add_sub_cancel]
      exact Nat.div_mul_le_self x chunk
    · unfold part_end part_start
      simp only [Nat.add_sub_cancel]
      rw [Nat.lt_min]
      refine ⟨?_, hx⟩
      have hdm := Nat.div_add_mod x chunk
      have hml : x % chunk < chunk := Nat.mod_lt _ hchunk
      have hc : chunk * (x / chunk) = x / chunk * chunk := Nat.mul_comm _ _
      omega
    · rintro q ⟨hqmem, hqs, hqe⟩
      rw [List.mem_range'_1] at hqmem
      have h1q : 1 ≤ q := hqmem.1
      unfold part_start at hqs
      unfold part_end part_start at hqe
      have hqe2 : x < (q - 1) * chunk + chunk :=
        lt_of_lt_of_le hqe (Nat.min_le_left _ _)
      have hdiv : x / chunk = q - 1 := by
        apply Nat.div_eq_of_lt_le hqs
        have hs : (q - 1 + 1) * chunk = (q - 1) * chunk + chunk := Nat.succ_mul _ _
        omega
      omega

theorem C4_partition_witness :
    0 < 10 ∧ part_end 25 10 (ceilDiv 25 10) = 25 :=
  ⟨by decide, (C4_partition 25 10 (by decide)).2.2.2.2.2.2.1 (by decide)⟩

/-- C2: every part makes at most MAX_RETRIES = 5 attempts and at least
one; every attempt that was followed by a retry was a transient
requests.RequestException; the sleeps are exactly
RETRY_BACKOFF_BASE ^ (k-1) seconds before the k-th retry; a success or a
non-transient exception at attempt m after m transient failures stops the
loop at exactly m+1 attempts (non-transient exceptions propagate
immediately); five transient failures give the terminal failure after
sleeps 1,2,4,8 with no fifth sleep; four transient failures then a success
give the PartResult after exactly the four sleeps 1,2,4,8. -/
theorem C2_retry_policy (pn psz : Nat) (att : Nat → AttemptOut) :
    (upload_part pn psz att).attemptsMade ≤ MAX_RETRIES ∧
    1 ≤ (upload_part pn psz att).attemptsMade ∧
    (∀ k, k < (upload_part pn psz att).attemptsMade - 1 → att k = .transient) ∧
    (upload_part pn psz att).sleeps
      = (List.range ((upload_part pn psz att).attemptsMade - 1)).map
          (fun k => RETRY_BACKOFF_BASE ^ k) ∧
    (∀ m e, m < MAX_RETRIES → (∀ k, k < m → att k = .transient) → att m = .ok e →
        (upload_part pn psz att).outcome
          = .success { part_number := pn, etag := stripQuotes (e.getD "") } ∧
        (upload_part pn psz att).attemptsMade = m + 1) ∧
    (∀ m, m < MAX_RETRIES → (∀ k, k < m → att k = .transient) → att m = .fatal →
        (upload_part pn psz att).outcome = .error ∧
        (upload_part pn psz att).attemptsMade = m + 1) ∧
    ((∀ k, k < MAX_RETRIES → att k = .transient) →
        (upload_part pn psz att).outcome = .failed ∧
        (upload_part pn psz att).attemptsMade = MAX_RETRIES ∧
        (upload_part pn psz att).sleeps = [1, 2, 4, 8]) ∧
    ((∀ k, k < MAX_RETRIES - 1 → att k = .transient) →
      ∀ e, att (MAX_RETRIES - 1) = .ok e →
        (upload_part pn psz att).outcome
          = .success { part_number := pn, etag := stripQuotes (e.getD "") } ∧
        (upload_part pn psz att).sleeps = [1, 2, 4, 8]) := by
  unfold upload_part
  refine ⟨upf_attemptsMade_le pn psz att MAX_RETRIES 0,
    upf_attemptsMade_pos pn psz att MAX_RETRIES 0 (by decide), ?_, ?_, ?_, ?_, ?_, ?_⟩
  · intro k hk
    have := upf_pre_transient pn psz att MAX_RETRIES 0 k hk
    simpa using this
  · have := upf_sleeps pn psz att MAX_RETRIES 0
    simpa using this
  · intro m e hm hpre hok
    have h := upf_success_at pn psz att e m MAX_RETRIES 0 hm
      (by simpa using hpre) (by simpa using hok)
    exact ⟨h.1, h.2.1⟩
  · intro m hm hpre hok
    have h := upf_fatal_at pn psz att m MAX_RETRIES 0 hm
      (by simpa using hpre) (by simpa using hok)
    exact ⟨h.1, h.2.1⟩
  · intro hall
    have h := upf_all_transient pn psz att MAX_RETRIES 0 (by simpa using hall)
    refine ⟨h.1, h.2.1, ?_⟩
    rw [upf_sleeps pn psz att MAX_RETRIES 0, h.2.1]
    decide
  · intro hpre e hok
    have h := upf_success_at pn psz att e (MAX_RETRIES - 1) MAX_RETRIES 0 (by decide)
      (by simpa using hpre) (by simpa using hok)
    refine ⟨h.1, ?_⟩
    rw [upf_sleeps pn psz att MAX_RETRIES 0, h.2.1]
    decide

theorem C2_retry_policy_witness :
    (upload_part 3 7 (fun _ => AttemptOut.transient)).outcome = PartOutcome.failed ∧
    (upload_part 3 7 (fun _ => AttemptOut.transient)).sleeps = [1, 2, 4, 8] := by
  have h := (C2_retry_policy 3 7 (fun _ => AttemptOut.transient)).2.2.2.2.2.2.1
    (fun _ _ => rfl)
  exact ⟨h.1, h.2.2⟩

/-- C10: a 2xx response with no ETag header is treated as a successful
upload: the PartResult carries the empty string as entity tag, no error is
raised, and no further attempt is made. -/
theorem C10_missing_etag (pn psz m : Nat) (att : Nat → AttemptOut)
    (hm : m < MAX_RETRIES) (hpre : ∀ k, k < m → att k = .transient)
    (hok : att m = .ok none) :
    (upload_part pn psz att).outcome = .success { part_number := pn, etag := "" } ∧
    (upload_part pn psz att).attemptsMade = m + 1 ∧
    (upload_part pn psz att).updates = [psz] := by
  have h := upf_success_at pn psz att none m MAX_RETRIES 0 hm
    (by simpa using hpre) (by simpa using hok)
  have hsq : stripQuotes ((none : Option String).getD "") = "" := rfl
  rw [hsq] at h
  exact ⟨h.1, h.2.1, h.2.2⟩

theorem C10_missing_etag_witness :
    (upload_part 2 9 (fun _ => AttemptOut.ok none)).outcome
      = PartOutcome.success { part_number := 2, etag := "" } ∧
    (upload_part 2 9 (fun _ => AttemptOut.ok none)).attemptsMade = 1 ∧
    (upload_part 2 9 (fun _ => AttemptOut.ok none)).updates = [9] := by
  have h := C10_missing_etag 2 9 0 (fun _ => AttemptOut.ok none) (by decide)
    (fun k hk => absurd hk (Nat.not_lt_zero k)) rfl
  simpa using h

theorem multipart_failed_spec (fsz chunk : Nat) (part_urls done0 restParts : List Nat)
    (pn : Nat) (env : Nat → Nat → AttemptOut) (cOk aOk : Bool)
    (hdone : ∀ q ∈ done0, isSuccessB (part_runs fsz chunk env q) = true)
    (hfail : isSuccessB (part_runs fsz chunk env pn) = false) :
    multipart_upload fsz chunk part_urls env (done0 ++ pn :: restParts) cOk aOk
      = { outcome := .partFailed pn
          trace := updatesOf (part_runs fsz chunk env) (done0 ++ [pn])
                     ++ [Event.close, Event.abortCall]
                     ++ (if aOk then [] else [Event.abortWarn])
                     ++ updatesOf (part_runs fsz chunk env) restParts
          requests := requestsOf (part_runs fsz chunk env) part_urls } := by
  unfold multipart_upload
  rw [collect_failedAt _ done0 pn restParts [] [] hdone hfail]
  simp

theorem multipart_allOk_true (fsz chunk : Nat) (part_urls order : List Nat)
    (env : Nat → Nat → AttemptOut) (aOk : Bool)
    (hsucc : ∀ pn ∈ order, isSuccessB (part_runs fsz chunk env pn) = true) :
    multipart_upload fsz chunk part_urls env order true aOk
      = { outcome := .success (sortParts
            (order.map fun x => the_result (part_runs fsz chunk env x)))
          trace := updatesOf (part_runs fsz chunk env) order
                     ++ [Event.close, Event.completeCall (sortParts
                          (order.map fun x => the_result (part_runs fsz chunk env x)))]
          requests := requestsOf (part_runs fsz chunk env) part_urls } := by
  unfold multipart_upload
  rw [collect_allOk _ order [] [] hsucc]
  simp

theorem multipart_allOk_false (fsz chunk : Nat) (part_urls order : List Nat)
    (env : Nat → Nat → AttemptOut) (aOk : Bool)
    (hsucc : ∀ pn ∈ order, isSuccessB (part_runs fsz chunk env pn) = true) :
    multipart_upload fsz chunk part_urls env order false aOk
      = { outcome := .completionFailed
          trace := updatesOf (part_runs fsz chunk env) order
                     ++ [Event.close, Event.completeCall (sortParts
                          (order.map fun x => the_result (part_runs fsz chunk env x))),
                         Event.close, Event.abortCall]
                     ++ (if aOk then [] else [Event.abortWarn])
          requests := requestsOf (part_runs fsz chunk env) part_urls } := by
  unfold multipart_upload
  rw [collect_allOk _ order [] [] hsucc]
  simp

/-- C1: when the as_completed loop observes the successes done0 and then a
first terminal failure at part pn (with restParts still outstanding), the
run ends as the failure identifying pn, the abort endpoint is invoked
exactly once, no part list is ever handed to the completion endpoint, and
no outcome carrying PartResults is produced: results of parts finishing
after the abort decision are discarded. -/
theorem C1_first_failure (fsz chunk : Nat) (part_urls done0 restParts : List Nat)
    (pn : Nat) (env : Nat → Nat → AttemptOut) (completeOk abortOk : Bool)
    (hdone : ∀ q ∈ done0, isSuccessB (part_runs fsz chunk env q) = true)
    (hfail : isSuccessB (part_runs fsz chunk env pn) = false) :
    (multipart_upload fsz chunk part_urls env (done0 ++ pn :: restParts)
        completeOk abortOk).outcome = .partFailed pn ∧
    (multipart_upload fsz chunk part_urls env (done0 ++ pn :: restParts)
        completeOk abortOk).trace.count Event.abortCall = 1 ∧
    (∀ l, Event.completeCall l ∉ (multipart_upload fsz chunk part_urls env
        (done0 ++ pn :: restParts) completeOk abortOk).trace) ∧
    (∀ l, (multipart_upload fsz chunk part_urls env (done0 ++ pn :: restParts)
        completeOk abortOk).outcome ≠ .success l) := by
  rw [multipart_failed_spec fsz chunk part_urls done0 restParts pn env
    completeOk abortOk hdone hfail]
  refine ⟨rfl, ?_, ?_, ?_⟩
  · have h1 := List.count_eq_zero.2
      (abortCall_not_mem_updatesOf (part_runs fsz chunk env) (done0 ++ [pn]))
    have h2 := List.count_eq_zero.2
      (abortCall_not_mem_updatesOf (part_runs fsz chunk env) restParts)
    cases abortOk <;> simp [List.count_append, h1, h2]
  · intro l
    have h1 := completeCall_not_mem_updatesOf (part_runs fsz chunk env) (done0 ++ [pn]) l
    have h2 := completeCall_not_mem_updatesOf (part_runs fsz chunk env) restParts l
    cases abortOk <;> simp [List.mem_append, h1, h2]
  · intro l h
    exact Outcome.noConfusion h

def wenvC1 : Nat → Nat → AttemptOut :=
  fun pn _ => if pn = 3 then AttemptOut.transient else AttemptOut.ok (some "t")

theorem C1_first_failure_witness :
    (multipart_upload 25 5 [1, 2, 3, 4, 5] wenvC1 [1, 2, 3, 4, 5] true true).outcome
      = Outcome.partFailed 3 ∧
    (multipart_upload 25 5 [1, 2, 3, 4, 5] wenvC1 [1, 2, 3, 4, 5] true true).trace.count
      Event.abortCall = 1 := by
  have h := C1_first_failure 25 5 [1, 2, 3, 4, 5] [1, 2] [4, 5] 3 wenvC1 true true
    (by decide) (by decide)
  exact ⟨h.1, h.2.1⟩

/-- C3: when every part succeeds, the list handed to the completion
endpoint (also returned in the success outcome) is sorted ascending by
part number and contains exactly one entry per supplied part, whatever
order the part transfers complete in. -/
theorem C3_sorted_results (fsz chunk : Nat) (part_urls order : List Nat)
    (env : Nat → Nat → AttemptOut) (abortOk : Bool)
    (hperm : order.Perm part_urls)
    (hsucc : ∀ pn ∈ part_urls, isSuccessB (part_runs fsz chunk env pn) = true) :
    ∃ l, (multipart_upload fsz chunk part_urls env order true abortOk).outcome
        = .success l ∧
      Event.completeCall l
        ∈ (multipart_upload fsz chunk part_urls env order true abortOk).trace ∧
      l.Sorted (fun a b => a.part_number ≤ b.part_number) ∧
      (l.map fun r => r.part_number).Perm part_urls := by
  have hsucc2 : ∀ pn ∈ order, isSuccessB (part_runs fsz chunk env pn) = true :=
    fun pn hpn => hsucc pn (hperm.mem_iff.1 hpn)
  rw [multipart_allOk_true fsz chunk part_urls order env abortOk hsucc2]
  refine ⟨_, rfl, ?_, ?_, ?_⟩
  · simp [List.mem_append]
  · exact List.sorted_insertionSort partLE _
  · have hp1 : (sortParts (order.map fun x => the_result (part_runs fsz chunk env x))).Perm
        (order.map fun x => the_result (part_runs fsz chunk env x)) :=
      List.perm_insertionSort partLE _
    have hp2 := hp1.map fun r : PartResult => r.part_number
    have hmap : ((order.map fun x => the_result (part_runs fsz chunk env x)).map
        fun r => r.part_number) = order := by
      rw [List.map_map]
      have hpt : ∀ x ∈ order, ((fun r : PartResult => r.part_number)
          ∘ fun x => the_result (part_runs fsz chunk env x)) x = id x := by
        intro x hx
        have ho := outcome_of_isSuccessB (hsucc2 x hx)
        simpa using upf_success_pn x (part_size fsz chunk x) (env x) MAX_RETRIES 0 _ ho
      rw [List.map_congr_left hpt, List.map_id]
    rw [hmap] at hp2
    exact hp2.trans hperm

def wenvC3 : Nat → Nat → AttemptOut :=
  fun pn _ => AttemptOut.ok (some (if pn = 1 then "a" else if pn = 2 then "b" else "c"))

theorem C3_sorted_results_witness :
    ∃ l, (multipart_upload 12 5 [1, 2, 3] wenvC3 [3, 1, 2] true true).outcome
        = Outcome.success l ∧
      Event.completeCall l
        ∈ (multipart_upload 12 5 [1, 2, 3] wenvC3 [3, 1, 2] true true).trace ∧
      l.Sorted (fun a b => a.part_number ≤ b.part_number) ∧
      (l.map fun r => r.part_number).Perm [1, 2, 3] :=
  C3_sorted_results 12 5 [1, 2, 3] [3, 1, 2] wenvC3 true (by decide) (by decide)

theorem updates_of_success (pn psz : Nat) (att : Nat → AttemptOut)
    (h : isSuccessB (upload_part pn psz att) = true) :
    (upload_part pn psz att).updates = [psz] := by
  have he := upf_updates_eq pn psz att MAX_RETRIES 0
  unfold upload_part at *
  rw [he, h]
  simp

theorem updates_of_failure (pn psz : Nat) (att : Nat → AttemptOut)
    (h : isSuccessB (upload_part pn psz att) = false) :
    (upload_part pn psz att).updates = [] := by
  have he := upf_updates_eq pn psz att MAX_RETRIES 0
  unfold upload_part at *
  rw [he, h]
  simp

def wenvOk : Nat → Nat → AttemptOut := fun _ _ => AttemptOut.ok (some "t")

/-- C5 counterexample: a run in which every part succeeds and the finalize
call fails; the code notifies the abort endpoint on this path, refuting
the claim that no abort is triggered by a completion failure. -/
theorem C5_counterexample :
    (multipart_upload 5 5 [1] wenvOk [1] false true).outcome
      = Outcome.completionFailed ∧
    Event.abortCall ∈ (multipart_upload 5 5 [1] wenvOk [1] false true).trace := by
  decide

/-- C5 (amended): when every part succeeds and the finalize call fails,
the upload fails with the distinct completion-failure outcome, never a
part-level failure outcome; the abort endpoint is additionally invoked
(best-effort) on this path. -/
theorem C5_completion_failure (fsz chunk : Nat) (part_urls order : List Nat)
    (env : Nat → Nat → AttemptOut) (abortOk : Bool)
    (hsucc : ∀ pn ∈ order, isSuccessB (part_runs fsz chunk env pn) = true) :
    (multipart_upload fsz chunk part_urls env order false abortOk).outcome
      = .completionFailed ∧
    (∀ q, (multipart_upload fsz chunk part_urls env order false abortOk).outcome
      ≠ .partFailed q) ∧
    Event.abortCall
      ∈ (multipart_upload fsz chunk part_urls env order false abortOk).trace := by
  rw [multipart_allOk_false fsz chunk part_urls order env abortOk hsucc]
  refine ⟨rfl, fun q h => Outcome.noConfusion h, ?_⟩
  simp [List.mem_append]

theorem C5_completion_failure_witness :
    (multipart_upload 10 5 [1, 2] wenvOk [2, 1] false true).outcome
      = Outcome.completionFailed ∧
    (∀ q, (multipart_upload 10 5 [1, 2] wenvOk [2, 1] false true).outcome
      ≠ Outcome.partFailed q) ∧
    Event.abortCall ∈ (multipart_upload 10 5 [1, 2] wenvOk [2, 1] false true).trace :=
  C5_completion_failure 10 5 [1, 2] [2, 1] wenvOk true (by decide)

/-- C6 counterexample: two presigned URLs are supplied although
ceil(10/10) = 1; the code performs no validation and issues one upload
request per supplied URL (two requests), refuting the claim that the
upload fails immediately with no part upload request issued. -/
theorem C6_counterexample :
    [1, 2].length ≠ ceilDiv 10 10 ∧
    (multipart_upload 10 10 [1, 2] wenvOk [1, 2] true true).requests = 2 := by
  decide

/-- C6 (amended): the code performs no input validation: whatever the
totalSize, chunkSize and supplied URL list (valid or mismatched), one part
transfer runs per supplied URL, so at least one upload request per
supplied URL is issued; there is no InvalidPlan failure path. -/
theorem C6_no_validation (fsz chunk : Nat) (part_urls order : List Nat)
    (env : Nat → Nat → AttemptOut) (completeOk abortOk : Bool) :
    part_urls.length
      ≤ (multipart_upload fsz chunk part_urls env order completeOk abortOk).requests := by
  have hr : (multipart_upload fsz chunk part_urls env order completeOk abortOk).requests
      = requestsOf (part_runs fsz chunk env) part_urls := by
    unfold multipart_upload
    cases collect (part_runs fsz chunk env) order [] [] with
    | allOk results => cases completeOk <;> rfl
    | failedAt pn done restParts => rfl
  rw [hr]
  exact requestsOf_ge_length fsz chunk env part_urls

def wenvC7 : Nat → Nat → AttemptOut :=
  fun pn _ => if pn = 1 then AttemptOut.transient else AttemptOut.ok (some "t")

/-- C7 counterexample: part 1 fails terminally while part 2 is still in
flight and then succeeds; the worker of part 2 updates the progress sink
after the sink was closed at the abort decision, refuting the claim that
no worker ever updates the progress sink after it has been closed. -/
theorem C7_counterexample :
    hasUpdateAfterClose
      (multipart_upload 10 5 [1, 2] wenvC7 [1, 2] true true).trace = true := by
  decide

/-- C7 (amended): after the first terminal failure, already-dispatched
part tasks still run to completion and report their progress: a part that
completes successfully after the abort decision still emits its update,
but the progress sink is closed at the abort decision, before the drained
tasks finish, so that update occurs after the close of the sink. -/
theorem C7_drain_after_close (fsz chunk : Nat) (part_urls done0 restParts : List Nat)
    (pn q : Nat) (env : Nat → Nat → AttemptOut) (completeOk abortOk : Bool)
    (hdone : ∀ x ∈ done0, isSuccessB (part_runs fsz chunk env x) = true)
    (hfail : isSuccessB (part_runs fsz chunk env pn) = false)
    (hq : q ∈ restParts)
    (hqs : isSuccessB (part_runs fsz chunk env q) = true) :
    ∃ pre post, (multipart_upload fsz chunk part_urls env (done0 ++ pn :: restParts)
        completeOk abortOk).trace = pre ++ Event.close :: post ∧
      Event.update q (part_size fsz chunk q) ∈ post := by
  rw [multipart_failed_spec fsz chunk part_urls done0 restParts pn env
    completeOk abortOk hdone hfail]
  refine ⟨updatesOf (part_runs fsz chunk env) (done0 ++ [pn]),
    Event.abortCall :: ((if abortOk then [] else [Event.abortWarn])
      ++ updatesOf (part_runs fsz chunk env) restParts), ?_, ?_⟩
  · simp
  · have hupd : (part_runs fsz chunk env q).updates = [part_size fsz chunk q] :=
      updates_of_success q (part_size fsz chunk q) (env q) hqs
    have hmem := update_mem_updatesOf (part_runs fsz chunk env) restParts q
      (part_size fsz chunk q) hq (by rw [hupd]; exact List.mem_singleton_self _)
    simp [List.mem_append, hmem]

theorem C7_drain_after_close_witness :
    ∃ pre post, (multipart_upload 10 5 [1, 2] wenvC7 [1, 2] true true).trace
        = pre ++ Event.close :: post ∧
      Event.update 2 (part_size 10 5 2) ∈ post :=
  C7_drain_after_close 10 5 [1, 2] [] [2] 1 2 wenvC7 true true
    (by decide) (by decide) (by decide) (by decide)

theorem sum_part_size (fsz chunk : Nat) (hchunk : 0 < chunk) :
    ∀ m, ((List.range' 1 m).map (part_size fsz chunk)).sum = min (m * chunk) fsz := by
  intro m
  induction m with
  | zero => simp
  | succ m ih =>
      rw [List.range'_1_concat, List.map_append, List.sum_append, ih]
      simp only [List.map_cons, List.map_nil, List.sum_cons, List.sum_nil]
      unfold part_size part_end part_start
      have h1 : 1 + m - 1 = m := by omega
      rw [h1]
      have hs : (m + 1) * chunk = m * chunk + chunk := Nat.succ_mul m chunk
      omega

theorem updateTotal_trace_allOk (fsz chunk : Nat) (part_urls order : List Nat)
    (env : Nat → Nat → AttemptOut) (completeOk abortOk : Bool)
    (hsucc : ∀ pn ∈ order, isSuccessB (part_runs fsz chunk env pn) = true) :
    updateTotal (multipart_upload fsz chunk part_urls env order completeOk abortOk).trace
      = updateTotal (updatesOf (part_runs fsz chunk env) order) := by
  cases completeOk
  · rw [multipart_allOk_false fsz chunk part_urls order env abortOk hsucc]
    cases abortOk <;> simp [updateTotal_append, updateTotal]
  · rw [multipart_allOk_true fsz chunk part_urls order env abortOk hsucc]
    simp [updateTotal_append, updateTotal]

/-- C8: each part reports its byte count to the progress sink exactly
once, on the successful attempt only, and reports nothing when it fails;
consequently, when the part numbers are the contiguous range
1..ceil(totalSize/chunkSize) and every part succeeds, the total of all
progress updates of the run equals the file size. -/
theorem C8_progress (fsz chunk : Nat) (hchunk : 0 < chunk)
    (env : Nat → Nat → AttemptOut) (order : List Nat) (completeOk abortOk : Bool)
    (hperm : order.Perm (List.range' 1 (ceilDiv fsz chunk)))
    (hsucc : ∀ pn ∈ order, isSuccessB (part_runs fsz chunk env pn) = true) :
    (∀ pn psz att, (isSuccessB (upload_part pn psz att) = true →
        (upload_part pn psz att).updates = [psz]) ∧
      (isSuccessB (upload_part pn psz att) = false →
        (upload_part pn psz att).updates = [])) ∧
    updateTotal (multipart_upload fsz chunk (List.range' 1 (ceilDiv fsz chunk))
        env order completeOk abortOk).trace = fsz := by
  refine ⟨fun pn psz att => ⟨updates_of_success pn psz att, updates_of_failure pn psz att⟩, ?_⟩
  rw [updateTotal_trace_allOk fsz chunk (List.range' 1 (ceilDiv fsz chunk)) order env
    completeOk abortOk hsucc]
  rw [updateTotal_updatesOf]
  have hmap : (order.map fun pn => (part_runs fsz chunk env pn).updates.sum)
      = order.map (part_size fsz chunk) := by
    apply List.map_congr_left
    intro pn hpn
    show (upload_part pn (part_size fsz chunk pn) (env pn)).updates.sum
        = part_size fsz chunk pn
    rw [updates_of_success pn (part_size fsz chunk pn) (env pn) (hsucc pn hpn)]
    simp
  rw [hmap]
  have hsum := (hperm.map (part_size fsz chunk)).sum_eq
  rw [hsum, sum_part_size fsz chunk hchunk]
  exact Nat.min_eq_right (le_ceilDiv_mul fsz chunk hchunk)

theorem C8_progress_witness :
    updateTotal (multipart_upload 12 5 (List.range' 1 (ceilDiv 12 5)) wenvOk [2, 3, 1]
      true true).trace = 12 :=
  (C8_progress 12 5 (by decide) wenvOk [2, 3, 1] true true (by decide) (by decide)).2

/-- C9: a failure of the abort notification is only warned about and
swallowed: the outcome of the run is identical whether the abort endpoint
succeeds or fails (the already-decided failure is never changed and the
abort failure is never raised), and the warning appears exactly on the
runs that invoked the abort endpoint. -/
theorem C9_abort_swallowed (fsz chunk : Nat) (part_urls order : List Nat)
    (env : Nat → Nat → AttemptOut) (completeOk : Bool) :
    (multipart_upload fsz chunk part_urls env order completeOk false).outcome
      = (multipart_upload fsz chunk part_urls env order completeOk true).outcome ∧
    (Event.abortWarn
        ∈ (multipart_upload fsz chunk part_urls env order completeOk false).trace
      ↔ Event.abortCall
        ∈ (multipart_upload fsz chunk part_urls env order completeOk false).trace) ∧
    Event.abortWarn
      ∉ (multipart_upload fsz chunk part_urls env order completeOk true).trace := by
  unfold multipart_upload
  cases hc : collect (part_runs fsz chunk env) order [] [] with
  | failedAt pn done restParts =>
      refine ⟨rfl, ?_, ?_⟩
      · simp [List.mem_append]
      · simp [List.mem_append, abortWarn_not_mem_updatesOf]
  | allOk results =>
      cases completeOk
      · refine ⟨rfl, ?_, ?_⟩
        · simp [List.mem_append]
        · simp [List.mem_append, abortWarn_not_mem_updatesOf]
      · refine ⟨rfl, ?_, ?_⟩
        · simp [List.mem_append, abortWarn_not_mem_updatesOf,
            abortCall_not_mem_updatesOf]
        · simp [List.mem_append, abortWarn_not_mem_updatesOf]

end Zerofs
